import Mathlib

/-!
Verification of the `md2gemini` conversion pipeline (`md2gemini/__init__.py`).

Text is modelled as `List Char`.  The helpers `__text_between` and
`__replace_between` are built on Python's `str.split(delim)` for a
single-character delimiter, embedded here as `pySplit`, and `delim.join`
embedded as `pyJoin`.  The three sentinel constants live in the
`renderers` module, which is not part of the sources verified here; they
are modelled from the specification (§3 "Sentinel Markers"): two opaque
marker characters guaranteed not to occur in rendered text, and a line
marker that is a literal newline.
-/

/-- Modelled from the spec: the paragraph-boundary sentinel marker from the
`renderers` module (not among the verified sources); an opaque character that
never occurs in rendered text. -/
def PARAGRAPH_DELIM : Char := '\x02'

/-- Modelled from the spec: the link-boundary sentinel marker from the
`renderers` module (not among the verified sources); an opaque character that
never occurs in rendered text. -/
def LINK_DELIM : Char := '\x01'

/-- Modelled from the spec: the canonical line separator (`NEWLINE`) from the
`renderers` module, "a literal newline". -/
def NEWLINE : List Char := ['\n']

/-- Convert a string literal to the `List Char` representation. -/
def str (s : String) : List Char := s.toList

/-- Python's ASCII whitespace, as stripped by `str.strip()` / `str.lstrip()`. -/
def isPySpace (c : Char) : Bool :=
  c = ' ' || c = '\t' || c = '\n' || c = '\r' || c = '\x0b' || c = '\x0c'

/-- Python `str.lstrip()`. -/
def lstrip (s : List Char) : List Char := s.dropWhile isPySpace

/-- Python `str.strip()`: remove leading and trailing whitespace. -/
def pyStrip (s : List Char) : List Char :=
  ((s.dropWhile isPySpace).reverse.dropWhile isPySpace).reverse

/-- Python `text.split(d)` for a one-character separator `d`. -/
def pySplit (d : Char) : List Char → List (List Char)
  | [] => [[]]
  | c :: rest =>
    if c = d then [] :: pySplit d rest
    else
      match pySplit d rest with
      | [] => [[c]]
      | h :: t => (c :: h) :: t

/-- Python `d.join(parts)` for a one-character separator `d`. -/
def pyJoin (d : Char) : List (List Char) → List Char
  | [] => []
  | [x] => x
  | x :: y :: xs => x ++ d :: pyJoin d (y :: xs)

/-- Python `text.replace("\r\n", "\n")`: one left-to-right pass replacing
non-overlapping occurrences. -/
def replCRLF : List Char → List Char
  | [] => []
  | [c] => [c]
  | c1 :: c2 :: rest =>
    if c1 = '\r' ∧ c2 = '\n' then '\n' :: replCRLF rest
    else c1 :: replCRLF (c2 :: rest)

/-- Python `text.replace("\n", " ")`. -/
def nlToSpace (s : List Char) : List Char :=
  s.map fun c => if c = '\n' then ' ' else c

/-- The body computed for one paragraph in the resolution loop (lines 85-88):
strip the extracted text, normalize `\r\n` to `\n`, turn the remaining line
breaks into spaces and append two newlines. -/
def paragraphBody (t : List Char) : List Char :=
  nlToSpace (replCRLF (pyStrip t)) ++ NEWLINE ++ NEWLINE

/-- One iteration of the paragraph-resolution loop (lines 84-89):
`__text_between(gemtext, PARAGRAPH_DELIM)` is `split[1]` (`none` models the
`IndexError` Python would raise if the index did not exist), and
`__replace_between` splices `start + new + end` with
`start = delim.join(split[:1])` and `end = delim.join(split[2:])`. -/
def pgStep (g : List Char) : Option (List Char) :=
  match (pySplit PARAGRAPH_DELIM g)[1]? with
  | none => none
  | some t =>
    some (pyJoin PARAGRAPH_DELIM ((pySplit PARAGRAPH_DELIM g).take 1)
      ++ paragraphBody t
      ++ pyJoin PARAGRAPH_DELIM ((pySplit PARAGRAPH_DELIM g).drop 2))

/-- The `while PARAGRAPH_DELIM in gemtext` loop, with an explicit iteration
bound; `pgLoopGo_complete` below shows the bound `count + 1` used by
`resolveParas` is never exhausted, so the fuel is only a device to make the
loop structurally recursive. -/
def pgLoopGo : Nat → List Char → Option (List Char)
  | 0, _ => none
  | fuel + 1, g =>
    if PARAGRAPH_DELIM ∈ g then
      match pgStep g with
      | none => none
      | some g2 => pgLoopGo fuel g2
    else some g

/-- The paragraph-resolution transform of the post-processor (lines 84-89). -/
def resolveParas (g : List Char) : Option (List Char) :=
  pgLoopGo (g.count PARAGRAPH_DELIM + 1) g

theorem pySplit_ne_nil (d : Char) (s : List Char) : pySplit d s ≠ [] := by
  induction s with
  | nil => simp [pySplit]
  | cons c rest ih =>
    simp only [pySplit]
    split
    · simp
    · split
      · simp
      · simp

theorem length_pySplit (d : Char) (s : List Char) :
    (pySplit d s).length = s.count d + 1 := by
  induction s with
  | nil => simp [pySplit]
  | cons c rest ih =>
    simp only [pySplit, List.count_cons]
    by_cases h : c = d
    · simp [h, ih]
    · simp only [if_neg h]
      cases hs : pySplit d rest with
      | nil => exact absurd hs (pySplit_ne_nil d rest)
      | cons hd tl =>
        rw [hs] at ih
        simp only [List.length_cons] at ih ⊢
        have hne : (c == d) = false := by simp [h]
        simp [hne, ih]

theorem not_mem_of_mem_pySplit (d : Char) (s x : List Char)
    (hx : x ∈ pySplit d s) : d ∉ x := by
  induction s generalizing x with
  | nil =>
    simp [pySplit] at hx
    simp [hx]
  | cons c rest ih =>
    simp only [pySplit] at hx
    by_cases h : c = d
    · rw [if_pos h] at hx
      rcases List.mem_cons.1 hx with h1 | h1
      · simp [h1]
      · exact ih x h1
    · rw [if_neg h] at hx
      cases hs : pySplit d rest with
      | nil => exact absurd hs (pySplit_ne_nil d rest)
      | cons hd tl =>
        rw [hs] at hx
        rcases List.mem_cons.1 hx with h1 | h1
        · subst h1
          intro hmem
          rcases List.mem_cons.1 hmem with h2 | h2
          · exact h h2.symm
          · exact ih hd (hs ▸ List.mem_cons_self _ _) h2
        · exact ih x (hs ▸ List.mem_cons_of_mem _ h1)

theorem pyJoin_pySplit (d : Char) (s : List Char) :
    pyJoin d (pySplit d s) = s := by
  induction s with
  | nil => simp [pySplit, pyJoin]
  | cons c rest ih =>
    simp only [pySplit]
    by_cases h : c = d
    · rw [if_pos h]
      cases hs : pySplit d rest with
      | nil => exact absurd hs (pySplit_ne_nil d rest)
      | cons hd tl =>
        rw [hs] at ih
        simp [pyJoin, ih, h]
    · rw [if_neg h]
      cases hs : pySplit d rest with
      | nil => exact absurd hs (pySplit_ne_nil d rest)
      | cons hd tl =>
        rw [hs] at ih
        cases tl with
        | nil => simp [pyJoin] at ih ⊢; simp [ih]
        | cons y ys => simp [pyJoin] at ih ⊢; simp [ih]

theorem pySplit_append_delim (d : Char) (a r : List Char) (ha : d ∉ a) :
    pySplit d (a ++ d :: r) = a :: pySplit d r := by
  induction a with
  | nil => simp [pySplit]
  | cons c a2 ih =>
    have hc : c ≠ d := fun h => ha (h ▸ List.mem_cons_self _ _)
    have ha2 : d ∉ a2 := fun h => ha (List.mem_cons_of_mem _ h)
    simp only [List.cons_append, pySplit, if_neg hc]
    simp only [List.append_eq, ih ha2]

theorem count_pyJoin (d : Char) (parts : List (List Char))
    (h : ∀ x ∈ parts, d ∉ x) : (pyJoin d parts).count d = parts.length - 1 := by
  induction parts with
  | nil => simp [pyJoin]
  | cons x xs ih =>
    cases xs with
    | nil =>
      simp only [pyJoin, List.length_cons]
      simp [List.count_eq_zero.2 (h x (List.mem_cons_self _ _))]
    | cons y ys =>
      have htl : ∀ z ∈ y :: ys, d ∉ z := fun z hz => h z (List.mem_cons_of_mem _ hz)
      simp only [pyJoin, List.count_append, List.count_cons, List.length_cons] at ih ⊢
      rw [List.count_eq_zero.2 (h x (List.mem_cons_self _ _)), ih htl]
      simp

theorem mem_pyStrip (c : Char) (s : List Char) (h : c ∈ pyStrip s) : c ∈ s := by
  simp only [pyStrip, List.mem_reverse] at h
  have h1 := (List.dropWhile_sublist isPySpace).subset h
  rw [List.mem_reverse] at h1
  exact (List.dropWhile_sublist isPySpace).subset h1

theorem mem_replCRLF : ∀ (s : List Char), ∀ c ∈ replCRLF s, c ∈ s ∨ c = '\n'
  | [] => by simp [replCRLF]
  | [a] => by
    intro c hc
    simp [replCRLF] at hc
    simp [hc]
  | a :: b :: rest => by
    intro c hc
    by_cases h : a = '\r' ∧ b = '\n'
    · rw [replCRLF, if_pos h] at hc
      rcases List.mem_cons.1 hc with h1 | h1
      · right; exact h1
      · rcases mem_replCRLF rest c h1 with h2 | h2
        · left; exact List.mem_cons_of_mem _ (List.mem_cons_of_mem _ h2)
        · right; exact h2
    · rw [replCRLF, if_neg h] at hc
      rcases List.mem_cons.1 hc with h1 | h1
      · left; exact h1 ▸ List.mem_cons_self _ _
      · rcases mem_replCRLF (b :: rest) c h1 with h2 | h2
        · left; exact List.mem_cons_of_mem _ h2
        · right; exact h2

theorem mem_nlToSpace (c : Char) (s : List Char) (h : c ∈ nlToSpace s) :
    c ∈ s ∨ c = ' ' := by
  simp only [nlToSpace, List.mem_map] at h
  obtain ⟨x, hx, hxc⟩ := h
  by_cases hn : x = '\n'
  · right; simp [hn] at hxc; exact hxc.symm
  · left; simp [hn] at hxc; exact hxc ▸ hx

theorem paragraphBody_not_mem (t : List Char) (ht : PARAGRAPH_DELIM ∉ t) :
    PARAGRAPH_DELIM ∉ paragraphBody t := by
  intro h
  simp only [paragraphBody, NEWLINE, List.mem_append] at h
  rcases h with (h | h) | h
  · rcases mem_nlToSpace _ _ h with h1 | h1
    · rcases mem_replCRLF _ _ h1 with h2 | h2
      · exact ht (mem_pyStrip _ _ h2)
      · exact absurd h2 (by decide)
    · exact absurd h1 (by decide)
  · simp at h; exact absurd h (by decide)
  · simp at h; exact absurd h (by decide)

theorem pgStep_count (g g2 : List Char) (h : pgStep g = some g2) :
    g2.count PARAGRAPH_DELIM = g.count PARAGRAPH_DELIM - 2 := by
  unfold pgStep at h
  cases hp : (pySplit PARAGRAPH_DELIM g)[1]? with
  | none => rw [hp] at h; exact absurd h (by simp)
  | some t =>
    rw [hp] at h
    obtain ⟨hlt, hget⟩ := List.getElem?_eq_some.1 hp
    cases hparts : pySplit PARAGRAPH_DELIM g with
    | nil => exact absurd hparts (pySplit_ne_nil _ _)
    | cons p0 tl =>
      have hg2 : g2 = p0 ++ paragraphBody t
          ++ pyJoin PARAGRAPH_DELIM ((pySplit PARAGRAPH_DELIM g).drop 2) := by
        have := h.symm
        rw [Option.some_inj] at h
        rw [← h, hparts]
        simp [pyJoin]
      have hp0 : PARAGRAPH_DELIM ∉ p0 :=
        not_mem_of_mem_pySplit _ _ _ (hparts ▸ List.mem_cons_self _ _)
      have ht : PARAGRAPH_DELIM ∉ t := by
        apply not_mem_of_mem_pySplit PARAGRAPH_DELIM g t
        exact List.getElem?_mem hp
      have hdropfree : ∀ x ∈ (pySplit PARAGRAPH_DELIM g).drop 2, PARAGRAPH_DELIM ∉ x :=
        fun x hx => not_mem_of_mem_pySplit _ _ _ (List.mem_of_mem_drop hx)
      have hjoin := count_pyJoin PARAGRAPH_DELIM _ hdropfree
      have hlen : (pySplit PARAGRAPH_DELIM g).length = g.count PARAGRAPH_DELIM + 1 :=
        length_pySplit _ _
      have hdlen : ((pySplit PARAGRAPH_DELIM g).drop 2).length
          = (pySplit PARAGRAPH_DELIM g).length - 2 := by simp
      rw [hg2]
      simp only [List.count_append]
      rw [List.count_eq_zero.2 hp0, List.count_eq_zero.2 (paragraphBody_not_mem t ht),
        hjoin, hdlen, hlen]
      have h2 : 1 < (pySplit PARAGRAPH_DELIM g).length := hlt
      omega

theorem pgStep_isSome (g : List Char) (h : PARAGRAPH_DELIM ∈ g) :
    ∃ g2, pgStep g = some g2 := by
  have hlen : 1 < (pySplit PARAGRAPH_DELIM g).length := by
    rw [length_pySplit]
    have := List.count_pos_iff.2 h
    omega
  unfold pgStep
  rw [List.getElem?_eq_getElem hlen]
  exact ⟨_, rfl⟩

theorem pgLoopGo_complete :
    ∀ (n : Nat) (g : List Char), g.count PARAGRAPH_DELIM ≤ n →
      ∃ r, pgLoopGo (n + 1) g = some r ∧ r.count PARAGRAPH_DELIM = 0 := by
  intro n
  induction n with
  | zero =>
    intro g hn
    have h0 : PARAGRAPH_DELIM ∉ g := by
      intro h
      have := List.count_pos_iff.2 h
      omega
    exact ⟨g, by simp only [pgLoopGo, if_neg h0], List.count_eq_zero.2 h0⟩
  | succ m ih =>
    intro g hn
    by_cases h : PARAGRAPH_DELIM ∈ g
    · obtain ⟨g2, hg2⟩ := pgStep_isSome g h
      have hc2 := pgStep_count g g2 hg2
      have hpos := List.count_pos_iff.2 h
      have hle : g2.count PARAGRAPH_DELIM ≤ m := by omega
      obtain ⟨r, hr, hr0⟩ := ih g2 hle
      refine ⟨r, ?_, hr0⟩
      simp only [pgLoopGo, if_pos h, hg2]
      exact hr
    · exact ⟨g, by simp only [pgLoopGo, if_neg h], List.count_eq_zero.2 h⟩

theorem resolveParas_some (g : List Char) :
    ∃ r, resolveParas g = some r ∧ r.count PARAGRAPH_DELIM = 0 :=
  pgLoopGo_complete (g.count PARAGRAPH_DELIM) g (Nat.le_refl _)

theorem pgStep_decomp (a b c : List Char)
    (ha : PARAGRAPH_DELIM ∉ a) (hb : PARAGRAPH_DELIM ∉ b) :
    pgStep (a ++ PARAGRAPH_DELIM :: (b ++ PARAGRAPH_DELIM :: c)) =
      some (a ++ paragraphBody b ++ c) := by
  have h1 : pySplit PARAGRAPH_DELIM (a ++ PARAGRAPH_DELIM :: (b ++ PARAGRAPH_DELIM :: c))
      = a :: b :: pySplit PARAGRAPH_DELIM c := by
    rw [pySplit_append_delim _ _ _ ha, pySplit_append_delim _ _ _ hb]
  unfold pgStep
  rw [h1]
  simp [pyJoin, pyJoin_pySplit]

/-- The paragraph-resolution step exactly as claim C1 words it: extract the
text between the leftmost marker pair, normalize `\r\n` to `\n`, replace every
line break with a space, append two line breaks and splice — with no
whitespace strip. -/
def c1ClaimStep (g : List Char) : Option (List Char) :=
  match (pySplit PARAGRAPH_DELIM g)[1]? with
  | none => none
  | some t =>
    some (pyJoin PARAGRAPH_DELIM ((pySplit PARAGRAPH_DELIM g).take 1)
      ++ (nlToSpace (replCRLF t) ++ NEWLINE ++ NEWLINE)
      ++ pyJoin PARAGRAPH_DELIM ((pySplit PARAGRAPH_DELIM g).drop 2))

/-- C1 (counterexample): on the intermediate string `⟦P⟧ Hi⟦P⟧` whose
paragraph text carries a leading space, the code's step (which strips the
extracted text, line 85) produces `"Hi\n\n"`, while the transform described by
the claim (no strip) would produce `" Hi\n\n"`. -/
theorem c1_counterexample :
    pgStep (PARAGRAPH_DELIM :: (str " Hi" ++ [PARAGRAPH_DELIM])) = some (str "Hi\n\n")
    ∧ c1ClaimStep (PARAGRAPH_DELIM :: (str " Hi" ++ [PARAGRAPH_DELIM])) = some (str " Hi\n\n")
    ∧ str "Hi\n\n" ≠ str " Hi\n\n" := by decide

/-- C1 (amended): each iteration of the paragraph-resolution loop takes the
leftmost marker pair, extracts the enclosed text, strips its leading and
trailing whitespace, normalizes `\r\n` to `\n`, replaces every remaining line
break with a single space, appends two line breaks, and splices the result in
place of the two markers and their content; in particular the paragraph
`"Hello\nworld."` resolves to `"Hello world."` followed by exactly one blank
line. -/
theorem c1_paragraph_resolution (a b c : List Char)
    (ha : PARAGRAPH_DELIM ∉ a) (hb : PARAGRAPH_DELIM ∉ b) :
    pgStep (a ++ PARAGRAPH_DELIM :: (b ++ PARAGRAPH_DELIM :: c)) =
      some (a ++ (nlToSpace (replCRLF (pyStrip b)) ++ NEWLINE ++ NEWLINE) ++ c)
    ∧ resolveParas (PARAGRAPH_DELIM :: (str "Hello\nworld." ++ [PARAGRAPH_DELIM])) =
      some (str "Hello world." ++ NEWLINE ++ NEWLINE) :=
  ⟨pgStep_decomp a b c ha hb, by decide⟩

/-- C1 (witness): the amended statement applied at a concrete input whose
paragraph text has surrounding whitespace and an internal line break. -/
theorem c1_witness :
    (pgStep (['x'] ++ PARAGRAPH_DELIM :: (str " Hi\nyou " ++ PARAGRAPH_DELIM :: ['y'])) =
      some (['x'] ++ (nlToSpace (replCRLF (pyStrip (str " Hi\nyou "))) ++ NEWLINE ++ NEWLINE) ++ ['y']))
    ∧ resolveParas (PARAGRAPH_DELIM :: (str "Hello\nworld." ++ [PARAGRAPH_DELIM])) =
      some (str "Hello world." ++ NEWLINE ++ NEWLINE) :=
  c1_paragraph_resolution ['x'] (str " Hi\nyou ") ['y'] (by decide) (by decide)

/-- C4 (counterexample): on an intermediate string holding a single unpaired
marker, the loop body runs once and removes exactly one marker occurrence, not
one pair: the count drops from 1 to 0. -/
theorem c4_counterexample :
    pgStep [PARAGRAPH_DELIM] = some (str "\n\n")
    ∧ List.count PARAGRAPH_DELIM [PARAGRAPH_DELIM] = 1
    ∧ List.count PARAGRAPH_DELIM (str "\n\n") = 0
    ∧ ¬ (List.count PARAGRAPH_DELIM [PARAGRAPH_DELIM]
          = List.count PARAGRAPH_DELIM (str "\n\n") + 2) := by decide

/-- C4 (amended): each iteration of the paragraph-resolution loop strictly
decreases the marker count — by one pair when at least two markers remain, and
by one when only a single unpaired marker remains — so the loop terminates and
no marker occurrences remain afterwards. -/
theorem c4_termination (g : List Char) (h : 0 < g.count PARAGRAPH_DELIM) :
    (∃ g2, pgStep g = some g2)
    ∧ (∀ g2, pgStep g = some g2 →
        g2.count PARAGRAPH_DELIM = g.count PARAGRAPH_DELIM - 2)
    ∧ (2 ≤ g.count PARAGRAPH_DELIM →
        ∀ g2, pgStep g = some g2 → g2.count PARAGRAPH_DELIM + 2 = g.count PARAGRAPH_DELIM)
    ∧ (g.count PARAGRAPH_DELIM = 1 →
        ∀ g2, pgStep g = some g2 → g2.count PARAGRAPH_DELIM + 1 = g.count PARAGRAPH_DELIM)
    ∧ (∃ r, resolveParas g = some r ∧ PARAGRAPH_DELIM ∉ r) := by
  have hmem : PARAGRAPH_DELIM ∈ g := List.count_pos_iff.1 h
  refine ⟨pgStep_isSome g hmem, fun g2 h2 => pgStep_count g g2 h2, ?_, ?_, ?_⟩
  · intro hge g2 h2
    have := pgStep_count g g2 h2
    omega
  · intro hone g2 h2
    have := pgStep_count g g2 h2
    omega
  · obtain ⟨r, hr, hr0⟩ := resolveParas_some g
    exact ⟨r, hr, List.count_eq_zero.1 hr0⟩

/-- C4 (witness): the amended statement applied at a concrete intermediate
string holding one marker pair. -/
theorem c4_witness :
    (∃ g2, pgStep [PARAGRAPH_DELIM, 'x', PARAGRAPH_DELIM] = some g2)
    ∧ (∀ g2, pgStep [PARAGRAPH_DELIM, 'x', PARAGRAPH_DELIM] = some g2 →
        g2.count PARAGRAPH_DELIM = List.count PARAGRAPH_DELIM [PARAGRAPH_DELIM, 'x', PARAGRAPH_DELIM] - 2)
    ∧ (2 ≤ List.count PARAGRAPH_DELIM [PARAGRAPH_DELIM, 'x', PARAGRAPH_DELIM] →
        ∀ g2, pgStep [PARAGRAPH_DELIM, 'x', PARAGRAPH_DELIM] = some g2 →
          g2.count PARAGRAPH_DELIM + 2 = List.count PARAGRAPH_DELIM [PARAGRAPH_DELIM, 'x', PARAGRAPH_DELIM])
    ∧ (List.count PARAGRAPH_DELIM [PARAGRAPH_DELIM, 'x', PARAGRAPH_DELIM] = 1 →
        ∀ g2, pgStep [PARAGRAPH_DELIM, 'x', PARAGRAPH_DELIM] = some g2 →
          g2.count PARAGRAPH_DELIM + 1 = List.count PARAGRAPH_DELIM [PARAGRAPH_DELIM, 'x', PARAGRAPH_DELIM])
    ∧ (∃ r, resolveParas [PARAGRAPH_DELIM, 'x', PARAGRAPH_DELIM] = some r ∧ PARAGRAPH_DELIM ∉ r) :=
  c4_termination [PARAGRAPH_DELIM, 'x', PARAGRAPH_DELIM] (by decide)

/-- C7: the paragraph-resolution loop never aborts — for every intermediate
string it returns a result (the `IndexError` path of `__text_between` is
unreachable) — and on the unbalanced string `"a⟦P⟧b"`, which holds a single
unpaired marker, it silently consumes the marker and returns `"ab\n\n"`
instead of signalling an internal error. -/
theorem c7_no_abort :
    (∀ g : List Char, ∃ r, resolveParas g = some r)
    ∧ resolveParas (str "a\x02b") = some (str "ab\n\n")
    ∧ List.count PARAGRAPH_DELIM (str "a\x02b") = 1 := by
  refine ⟨fun g => ?_, by decide, by decide⟩
  obtain ⟨r, hr, _⟩ := resolveParas_some g
  exact ⟨r, hr⟩

/-- C9: applying the paragraph-resolution transform to a string that contains
no paragraph-boundary marker returns the string unchanged. -/
theorem c9_idempotent (g : List Char) (h : PARAGRAPH_DELIM ∉ g) :
    resolveParas g = some g := by
  have h0 : g.count PARAGRAPH_DELIM = 0 := List.count_eq_zero.2 h
  unfold resolveParas
  rw [h0]
  simp only [pgLoopGo, if_neg h]

/-- C9 (witness): the idempotence statement applied at a concrete
already-resolved string. -/
theorem c9_witness : resolveParas (str "abc\n\ndef\n\n") = some (str "abc\n\ndef\n\n") :=
  c9_idempotent (str "abc\n\ndef\n\n") (by decide)

/-- Python `gemtext.replace(LINK_DELIM + LINK_DELIM, LINK_DELIM)` (line 96):
one left-to-right pass replacing non-overlapping marker pairs. -/
def collapseLL : List Char → List Char
  | [] => []
  | [c] => [c]
  | c1 :: c2 :: rest =>
    if c1 = LINK_DELIM ∧ c2 = LINK_DELIM then LINK_DELIM :: collapseLL rest
    else c1 :: collapseLL (c2 :: rest)

/-- The `re.sub` of line 100, which deletes every `LINK_DELIM` that is
directly preceded by `\n` (the lookbehind `(?<=\r\n)` alternative can only
produce an empty match, which `re.sub` replaces by the empty string — a
no-op — before retrying a non-empty match at the same position) or directly
followed by `\r\n` or `\n`.  The scan keeps the previous character of the
original string as context, since lookarounds examine the subject string, not
the partially built replacement. -/
def pruneGo (p1 : Option Char) : List Char → List Char
  | [] => []
  | c :: rest =>
    if c = LINK_DELIM ∧ (p1 = some '\n' ∨ rest.head? = some '\n'
        ∨ (rest.head? = some '\r' ∧ rest.tail.head? = some '\n')) then
      pruneGo (some c) rest
    else c :: pruneGo (some c) rest

/-- Deletion of link markers adjacent to line breaks (line 100). -/
def pruneL (s : List Char) : List Char := pruneGo none s

/-- Python `gemtext.replace(LINK_DELIM, NEWLINE)` (line 101). -/
def lToNewline (s : List Char) : List Char :=
  s.flatMap fun c => if c = LINK_DELIM then NEWLINE else [c]

/-- The link-boundary resolution of the post-processor (lines 96-101). -/
def linkResolve (s : List Char) : List Char := lToNewline (pruneL (collapseLL s))

/-- Positional description of the regex of line 100: the character at
position `p` is deleted iff it is a `LINK_DELIM` whose predecessor is `\n`
or whose successors start with `\n` or `\r\n`. -/
def lRemoved (s : List Char) (p : Nat) : Bool :=
  (s[p]? == some LINK_DELIM) &&
    ((decide (1 ≤ p) && (s[p-1]? == some '\n')) || (s[p+1]? == some '\n')
      || ((s[p+1]? == some '\r') && (s[p+2]? == some '\n')))

/-- The pruning pass, reformulated over positions in the original string. -/
def pruneSpec (s : List Char) : List Char :=
  (List.range s.length).filterMap fun p => if lRemoved s p then none else s[p]?

theorem collapseLL_replicate :
    ∀ n, collapseLL (List.replicate n LINK_DELIM) = List.replicate ((n + 1) / 2) LINK_DELIM
  | 0 => rfl
  | 1 => rfl
  | n + 2 => by
    have ih := collapseLL_replicate n
    rw [List.replicate_succ, List.replicate_succ]
    simp only [collapseLL, and_self, if_true, ih]
    rw [← List.replicate_succ]
    congr 1
    omega

theorem pruneGo_drop (s : List Char) :
    ∀ n k, s.length - k ≤ n →
      pruneGo (if k = 0 then none else s[k - 1]?) (s.drop k)
        = (List.range' k (s.length - k)).filterMap
            (fun p => if lRemoved s p then none else s[p]?) := by
  intro n
  induction n with
  | zero =>
    intro k hk
    have hlen : s.length ≤ k := by omega
    rw [List.drop_of_length_le hlen]
    have h0 : s.length - k = 0 := by omega
    rw [h0]
    simp [pruneGo]
  | succ m ih =>
    intro k hk
    by_cases hlt : k < s.length
    · have hdrop : s.drop k = s[k] :: s.drop (k + 1) := List.drop_eq_getElem_cons hlt
      have hrange : s.length - k = (s.length - (k + 1)) + 1 := by omega
      have hsk : s[k]? = some s[k] := List.getElem?_eq_getElem hlt
      have hhead : (s.drop (k + 1)).head? = s[k + 1]? := List.head?_drop ..
      have htail : (s.drop (k + 1)).tail.head? = s[k + 2]? := by
        rw [List.tail_drop]
        exact List.head?_drop ..
      have hcond : lRemoved s k = true
          ↔ (s[k] = LINK_DELIM ∧ ((if k = 0 then (none : Option Char) else s[k - 1]?) = some '\n'
              ∨ (s.drop (k + 1)).head? = some '\n'
              ∨ ((s.drop (k + 1)).head? = some '\r' ∧ (s.drop (k + 1)).tail.head? = some '\n'))) := by
        rw [hhead, htail]
        unfold lRemoved
        rw [hsk]
        by_cases hk0 : k = 0
        · subst hk0
          simp
        · have h1 : (1 : Nat) ≤ k := Nat.one_le_iff_ne_zero.2 hk0
          simp [hk0, h1]
          intro _
          exact or_assoc
      have hih := ih (k + 1) (by omega)
      have hih2 : pruneGo (some s[k]) (s.drop (k + 1))
          = (List.range' (k + 1) (s.length - (k + 1))).filterMap
              (fun p => if lRemoved s p then none else s[p]?) := by
        have hne : (k + 1) ≠ 0 := Nat.succ_ne_zero k
        rw [if_neg hne] at hih
        simpa [hsk] using hih
      rw [hdrop, hrange, List.range'_succ, List.filterMap_cons]
      generalize hp1 : (if k = 0 then (none : Option Char) else s[k - 1]?) = p1v
      rw [hp1] at hcond
      by_cases hrem : lRemoved s k = true
      · have hval : (if lRemoved s k = true then (none : Option Char) else s[k]?) = none := by
          rw [hrem]
          rfl
        obtain ⟨hL, hadj⟩ := hcond.1 hrem
        simp only [hval, pruneGo]
        split
        · exact hih2
        · next hno => exact absurd (And.intro hL hadj) hno
      · have hrem2 : lRemoved s k = false := by
          cases h2 : lRemoved s k
          · rfl
          · exact absurd h2 hrem
        have hval : (if lRemoved s k = true then (none : Option Char) else s[k]?) = some s[k] := by
          rw [hrem2, hsk]
          simp
        have hnc : ¬ (s[k] = LINK_DELIM ∧ (p1v = some '\n'
            ∨ (s.drop (k + 1)).head? = some '\n'
            ∨ ((s.drop (k + 1)).head? = some '\r' ∧ (s.drop (k + 1)).tail.head? = some '\n'))) :=
          fun hc => hrem (hcond.2 hc)
        simp only [hval, pruneGo]
        split
        · next hyes => exact absurd hyes hnc
        · rw [hih2]
    · have hlen : s.length ≤ k := by omega
      rw [List.drop_of_length_le hlen]
      have h0 : s.length - k = 0 := by omega
      rw [h0]
      simp [pruneGo]

theorem pruneL_eq_pruneSpec (s : List Char) : pruneL s = pruneSpec s := by
  have h := pruneGo_drop s s.length 0 (by omega)
  simpa [pruneL, pruneSpec, List.range_eq_range'] using h

theorem lToNewline_eq_map (s : List Char) :
    lToNewline s = s.map fun c => if c = LINK_DELIM then '\n' else c := by
  induction s with
  | nil => rfl
  | cons c rest ih =>
    simp only [lToNewline, NEWLINE, List.flatMap_cons, List.map_cons] at ih ⊢
    by_cases h : c = LINK_DELIM
    · simp [h, NEWLINE, ih]
    · simp [h, ih]

theorem not_mem_lToNewline (s : List Char) : LINK_DELIM ∉ lToNewline s := by
  intro h
  rw [lToNewline_eq_map] at h
  obtain ⟨x, _, hx⟩ := List.mem_map.1 h
  by_cases hxl : x = LINK_DELIM
  · rw [if_pos hxl] at hx
    exact absurd hx (by decide)
  · rw [if_neg hxl] at hx
    exact hxl hx

theorem mem_lToNewline (c : Char) (s : List Char) (h : c ∈ lToNewline s) :
    c ∈ s ∨ c = '\n' := by
  rw [lToNewline_eq_map] at h
  obtain ⟨x, hxs, hx⟩ := List.mem_map.1 h
  by_cases hxl : x = LINK_DELIM
  · right; rw [if_pos hxl] at hx; exact hx.symm
  · left; rw [if_neg hxl] at hx; exact hx ▸ hxs

theorem mem_collapseLL : ∀ (s : List Char), ∀ c ∈ collapseLL s, c ∈ s
  | [] => by simp [collapseLL]
  | [a] => by simp [collapseLL]
  | a :: b :: rest => by
    intro c hc
    by_cases h : a = LINK_DELIM ∧ b = LINK_DELIM
    · simp only [collapseLL, if_pos h] at hc
      rcases List.mem_cons.1 hc with h1 | h1
      · rw [h1, ← h.1]
        exact List.mem_cons_self _ _
      · exact List.mem_cons_of_mem _ (List.mem_cons_of_mem _ (mem_collapseLL rest c h1))
    · simp only [collapseLL, if_neg h] at hc
      rcases List.mem_cons.1 hc with h1 | h1
      · rw [h1]
        exact List.mem_cons_self _ _
      · exact List.mem_cons_of_mem _ (mem_collapseLL (b :: rest) c h1)

theorem mem_pruneGo : ∀ (s : List Char) (p1 : Option Char), ∀ c ∈ pruneGo p1 s, c ∈ s := by
  intro s
  induction s with
  | nil => intro p1 c hc; simp [pruneGo] at hc
  | cons a rest ih =>
    intro p1 c hc
    simp only [pruneGo] at hc
    split at hc
    · exact List.mem_cons_of_mem _ (ih (some a) c hc)
    · rcases List.mem_cons.1 hc with h1 | h1
      · exact h1 ▸ List.mem_cons_self _ _
      · exact List.mem_cons_of_mem _ (ih (some a) c h1)

/-- C5 (counterexample): a run of three consecutive link-boundary markers with
no adjacent line break is collapsed to two markers by the single-pass
`replace` of line 96 (not to one, as the claim states), so the resolution of
`"a⟦L⟧⟦L⟧⟦L⟧b"` yields two line breaks where the claim predicts one. -/
theorem c5_counterexample :
    linkResolve (str "a" ++ [LINK_DELIM, LINK_DELIM, LINK_DELIM] ++ str "b") = str "a\n\nb"
    ∧ str "a\n\nb" ≠ str "a\nb"
    ∧ collapseLL [LINK_DELIM, LINK_DELIM, LINK_DELIM] = [LINK_DELIM, LINK_DELIM]
    ∧ [LINK_DELIM, LINK_DELIM] ≠ [LINK_DELIM] := by decide

/-- C5 (amended): consecutive link-boundary markers collapse pairwise in one
left-to-right pass, a run of `n` markers becoming `⌈n/2⌉` markers (not always
a single one); a marker immediately adjacent to a line break — preceded by
`\n` or followed by `\n` or `\r\n` — is deleted outright rather than converted
to a line break; and every remaining marker becomes exactly one line break,
all other characters passing through unchanged. -/
theorem c5_link_resolution :
    (∀ n, collapseLL (List.replicate n LINK_DELIM)
        = List.replicate ((n + 1) / 2) LINK_DELIM)
    ∧ (∀ s, pruneL s = pruneSpec s)
    ∧ (∀ s, lToNewline s = s.map fun c => if c = LINK_DELIM then '\n' else c)
    ∧ (∀ s, LINK_DELIM ∉ lToNewline s)
    ∧ (∀ s, linkResolve s = lToNewline (pruneSpec (collapseLL s))) := by
  refine ⟨collapseLL_replicate, pruneL_eq_pruneSpec, lToNewline_eq_map,
    not_mem_lToNewline, fun s => ?_⟩
  rw [linkResolve, pruneL_eq_pruneSpec]

/-- Line-break characters recognized by Python `str.splitlines()` (the
`\r\n` pair is handled separately as a single break). -/
def isLB (c : Char) : Bool :=
  c = '\n' || c = '\r' || c = '\x0b' || c = '\x0c' || c = '\x1c' || c = '\x1d'
    || c = '\x1e' || c = '\x85' || c = '\u2028' || c = '\u2029'

/-- Worker for `pySplitlines`; `cur` is the reversed current line. -/
def pySplitlinesGo (cur : List Char) : List Char → List (List Char)
  | [] => [cur.reverse]
  | '\r' :: '\n' :: r =>
    cur.reverse :: (if r.isEmpty then [] else pySplitlinesGo [] r)
  | c :: rest =>
    if isLB c then
      cur.reverse :: (if rest.isEmpty then [] else pySplitlinesGo [] rest)
    else pySplitlinesGo (c :: cur) rest

/-- Python `str.splitlines()`: split at line breaks, treating `\r\n` as one
break and emitting no final empty line for a trailing break. -/
def pySplitlines : List Char → List (List Char)
  | [] => []
  | s => pySplitlinesGo [] s

/-- The closing-line test of the front-matter loop (line 67):
`((frontmatter or jekyll) and line == "---") or (frontmatter and line == "+++")`. -/
def fmClose (frontmatter jekyll : Bool) (l : List Char) : Bool :=
  ((frontmatter || jekyll) && (l == str "---")) || (frontmatter && (l == str "+++"))

/-- The front-matter pre-processing of `md2gemini` (lines 52-74).  `none`
models the `IndexError` Python raises at `lines[0]` when the stripped document
has no lines. -/
def stripFrontmatter (markdown : List Char) (frontmatter jekyll : Bool) : Option (List Char) :=
  if frontmatter || jekyll then
    match pySplitlines (pyStrip markdown) with
    | [] => none
    | l0 :: tl =>
      let fmExists := if frontmatter then (l0 == str "---") || (l0 == str "+++")
                      else l0 == str "---"
      if fmExists then
        let md_lines := match tl.findIdx? (fmClose frontmatter jekyll) with
          | some i => (l0 :: tl).drop (i + 2)
          | none => ([] : List (List Char))
        if md_lines = [] then some markdown else some (pyJoin '\n' md_lines)
      else some markdown
  else some markdown

/-- C8 (counterexample): a document opening with `"---"` and containing no
later `"---"` line is nevertheless stripped when a `"+++"` line occurs, since
the closing test of line 67 also accepts `"+++"` under `frontmatter=True`:
the document `"---\na\n+++\nb"` is reduced to `"b"`, not passed on unchanged. -/
theorem c8_counterexample :
    stripFrontmatter (str "---\na\n+++\nb") true false = some (str "b")
    ∧ str "b" ≠ str "---\na\n+++\nb" := by decide

/-- C8 (amended): a document whose first (stripped) line is `"---"` and which
contains no later line equal to `"---"` or `"+++"` is treated as having no
front matter under `frontmatter=True`: the document text is passed on to
conversion unchanged and no error is raised. -/
theorem c8_unterminated_front_matter (doc l0 : List Char) (tl : List (List Char)) (jk : Bool)
    (h : pySplitlines (pyStrip doc) = l0 :: tl)
    (h0 : l0 = str "---")
    (hcl : ∀ l ∈ tl, l ≠ str "---" ∧ l ≠ str "+++") :
    stripFrontmatter doc true jk = some doc := by
  have hidx : tl.findIdx? (fmClose true jk) = none := by
    refine List.findIdx?_eq_none_iff.2 fun x hx => ?_
    obtain ⟨h1, h2⟩ := hcl x hx
    simp [fmClose, h1, h2]
  unfold stripFrontmatter
  rw [h]
  simp [h0, hidx]

/-- C8 (witness): the amended statement applied at a concrete unterminated
front-matter document. -/
theorem c8_witness :
    stripFrontmatter (str "---\ntitle: x\nbody text") true false
      = some (str "---\ntitle: x\nbody text") :=
  c8_unterminated_front_matter (str "---\ntitle: x\nbody text") (str "---")
    [str "title: x", str "body text"] false (by decide) (by decide) (by decide)

/-- C10 (counterexample): when the closing delimiter is the last line, no
lines follow it, `md_lines` stays empty and the whole document — front matter
included — is passed on to conversion, while the claim requires that only the
(empty) text after the closing line be converted. -/
theorem c10_counterexample :
    stripFrontmatter (str "---\nx\n+++") true false = some (str "---\nx\n+++")
    ∧ str "---\nx\n+++" ≠ str "" := by decide

/-- C10 (amended): with `frontmatter=True`, a document whose first (stripped)
line is `"---"` or `"+++"` has its front matter ended by the first later line
equal to either `"---"` or `"+++"` (the closing delimiter need not match the
opening one), and only the lines after that closing line are converted —
unless no line follows the closing line, in which case the removal is skipped
and the entire document is converted. -/
theorem c10_mixed_close (doc l0 cl : List Char) (t1 rest : List (List Char))
    (h : pySplitlines (pyStrip doc) = l0 :: (t1 ++ cl :: rest))
    (h0 : l0 = str "---" ∨ l0 = str "+++")
    (hcl : cl = str "---" ∨ cl = str "+++")
    (ht1 : ∀ l ∈ t1, l ≠ str "---" ∧ l ≠ str "+++") :
    stripFrontmatter doc true false
      = some (if rest = [] then doc else pyJoin '\n' rest) := by
  have hidxt1 : t1.findIdx? (fmClose true false) = none := by
    refine List.findIdx?_eq_none_iff.2 fun x hx => ?_
    obtain ⟨h1, h2⟩ := ht1 x hx
    simp [fmClose, h1, h2]
  have hclT : fmClose true false cl = true := by
    rcases hcl with h1 | h1 <;> simp [fmClose, h1]
  have hidx : (t1 ++ cl :: rest).findIdx? (fmClose true false) = some t1.length := by
    rw [List.findIdx?_append, hidxt1]
    simp [List.findIdx?_cons, hclT]
  have hdrop : (l0 :: (t1 ++ cl :: rest)).drop (t1.length + 2) = rest := by
    rw [show t1.length + 2 = t1.length + 1 + 1 from rfl]
    rw [List.drop_succ_cons]
    rw [← List.drop_drop]
    rw [List.drop_left]
    simp
  have hfm : ((l0 == str "---") || (l0 == str "+++")) = true := by
    rcases h0 with h1 | h1 <;> simp [h1]
  unfold stripFrontmatter
  rw [h]
  simp only [Bool.true_or, if_true, hfm, hidx, hdrop]
  by_cases hr : rest = []
  · simp [hr]
  · simp [hr]

/-- C10 (witness): the amended statement applied at a concrete document
opening with `"+++"` and closed by `"---"`, after which one body line
follows. -/
theorem c10_witness :
    stripFrontmatter (str "+++\nt\n---\nbody") true false = some (str "body") := by
  have h := c10_mixed_close (str "+++\nt\n---\nbody") (str "+++") (str "---")
    [str "t"] [str "body"] (by decide) (by decide) (by decide) (by decide)
  simpa using h

/-- The loop of lines 109-116: `for i, line in enumerate(gemlines)` with the
fence toggle and the left-strip of the line after a link line.  `len` is the
`length` variable computed at line 108 (the list's length never changes, since
`set` preserves it); `fuel` only bounds the iteration so the recursion is
structural, and `cleanup` supplies enough for all positions.  The loop reads
`gemlines[i]` from the current, possibly already modified list, exactly as the
Python iteration does. -/
def cleanupGo : Nat → Nat → List (List Char) → Nat → Bool → List (List Char)
  | 0, _, ls, _, _ => ls
  | fuel + 1, len, ls, i, pre =>
    if i < ls.length then
      let line := ls.getD i []
      if (str "```").isPrefixOf line then cleanupGo fuel len ls (i + 1) (!pre)
      else if decide (i + 1 < len - 1) && (str "=>").isPrefixOf line && !pre then
        cleanupGo fuel len (ls.set (i + 1) (lstrip (ls.getD (i + 1) []))) (i + 1) pre
      else cleanupGo fuel len ls (i + 1) pre
    else ls

/-- The whitespace-cleanup pass over the line list (lines 107-116). -/
def cleanup (ls : List (List Char)) : List (List Char) :=
  cleanupGo ls.length ls.length ls 0 false

/-- Recursive reformulation of the cleanup pass: a fence line toggles the
flag; outside preformatted regions, a line starting with `"=>"` causes the
next line to be left-stripped, but only when at least one further line
follows it (the next line is not the last); the stripped line is then itself
processed in its modified form. -/
def specClean (pre : Bool) : List (List Char) → List (List Char)
  | [] => []
  | line :: rest =>
    if (str "```").isPrefixOf line then line :: specClean (!pre) rest
    else if (str "=>").isPrefixOf line = true ∧ pre = false ∧ 2 ≤ rest.length then
      line :: specClean pre (rest.modifyHead lstrip)
    else line :: specClean pre rest
termination_by ls => ls.length
decreasing_by all_goals simp

/-- Lines 104-117: split into lines, raise `IndexError` on an empty line list
(`gemlines[-1]`), drop one trailing empty line, run the cleanup loop and
rejoin with the canonical line break. -/
def finalPass (g : List Char) : Option (List Char) :=
  match (pySplitlines g).getLast? with
  | none => none
  | some last =>
    let gemlines := if last = [] then (pySplitlines g).dropLast else pySplitlines g
    some (pyJoin '\n' (cleanup gemlines))

/-- The post-processing pipeline and conversion entry point (lines 31-119).
The parser-plus-renderer stage (`mistune` with `GeminiRenderer`, line 77-79)
is not among the verified sources and is abstracted as an arbitrary function
`render` from the pre-processed markdown to the intermediate string;
`footnotes` stands for `renderer._render_footnotes()` (line 93) and
`linksAtEnd` for the test `links == "at-end"` (line 92). -/
def md2gemini (render : List Char → List Char) (markdown : List Char)
    (frontmatter jekyll linksAtEnd : Bool) (footnotes : List Char) : Option (List Char) :=
  match stripFrontmatter markdown frontmatter jekyll with
  | none => none
  | some md =>
    match resolveParas (render md) with
    | none => none
    | some g1 =>
      let g2 := if linksAtEnd then g1 ++ NEWLINE ++ footnotes ++ NEWLINE else g1
      finalPass (linkResolve g2)

theorem cleanupGo_spec :
    ∀ (fuel : Nat) (ls : List (List Char)) (i : Nat) (pre : Bool),
      ls.length ≤ i + fuel →
      cleanupGo fuel ls.length ls i pre = ls.take i ++ specClean pre (ls.drop i) := by
  intro fuel
  induction fuel with
  | zero =>
    intro ls i pre hle
    have h1 : ls.length ≤ i := by omega
    rw [List.drop_of_length_le h1, List.take_of_length_le h1]
    simp [cleanupGo, specClean]
  | succ m ih =>
    intro ls i pre hle
    by_cases hlt : i < ls.length
    · have hdrop : ls.drop i = ls[i] :: ls.drop (i + 1) := List.drop_eq_getElem_cons hlt
      have hgetD : ls.getD i [] = ls[i] := List.getD_eq_getElem ls [] hlt
      have htake : ls.take (i + 1) = ls.take i ++ [ls[i]] := by
        rw [List.take_succ, List.getElem?_eq_getElem hlt]
        rfl
      simp only [cleanupGo, if_pos hlt, hgetD]
      by_cases hf : (str "```").isPrefixOf ls[i] = true
      · rw [if_pos hf]
        rw [ih ls (i + 1) (!pre) (by omega)]
        rw [hdrop]
        simp only [specClean, if_pos hf]
        rw [htake]
        simp only [List.append_assoc, List.singleton_append]
      · rw [if_neg hf]
        by_cases hc : (decide (i + 1 < ls.length - 1) && (str "=>").isPrefixOf ls[i] && !pre) = true
        · rw [if_pos hc]
          have hc3 : i + 1 < ls.length - 1 ∧ (str "=>").isPrefixOf ls[i] = true ∧ pre = false := by
            simp only [Bool.and_eq_true, decide_eq_true_eq, Bool.not_eq_true'] at hc
            exact ⟨hc.1.1, hc.1.2, hc.2⟩
          have hlt2 : i + 1 < ls.length := by omega
          have hlen2 : (ls.set (i + 1) (lstrip (ls.getD (i + 1) []))).length = ls.length :=
            List.length_set ..
          rw [show cleanupGo m ls.length (ls.set (i + 1) (lstrip (ls.getD (i + 1) []))) (i + 1) pre
              = cleanupGo m (ls.set (i + 1) (lstrip (ls.getD (i + 1) []))).length
                  (ls.set (i + 1) (lstrip (ls.getD (i + 1) []))) (i + 1) pre from by rw [hlen2]]
          rw [ih _ (i + 1) pre (by rw [hlen2]; omega)]
          have ht2 : (ls.set (i + 1) (lstrip (ls.getD (i + 1) []))).take (i + 1)
              = ls.take (i + 1) := by
            rw [List.set_take]
            apply List.set_eq_of_length_le
            simp
          have hd2 : (ls.set (i + 1) (lstrip (ls.getD (i + 1) []))).drop (i + 1)
              = (ls.drop (i + 1)).modifyHead lstrip := by
            rw [List.drop_set]
            rw [if_neg (by omega : ¬ (i + 1 < i + 1))]
            rw [List.drop_eq_getElem_cons hlt2]
            have hsub : i + 1 - (i + 1) = 0 := by omega
            rw [hsub, List.set_cons_zero, List.modifyHead_cons]
            rw [List.getD_eq_getElem ls [] hlt2]
          rw [ht2, hd2, htake, hdrop]
          have hsc : (str "=>").isPrefixOf ls[i] = true ∧ pre = false
              ∧ 2 ≤ (ls.drop (i + 1)).length := by
            refine ⟨hc3.2.1, hc3.2.2, ?_⟩
            simp only [List.length_drop]
            omega
          simp only [specClean, if_neg hf, if_pos hsc]
          rw [List.append_assoc, List.singleton_append]
        · rw [if_neg hc]
          rw [ih ls (i + 1) pre (by omega)]
          rw [hdrop]
          have hnc : ¬ ((str "=>").isPrefixOf ls[i] = true ∧ pre = false
              ∧ 2 ≤ (ls.drop (i + 1)).length) := by
            rintro ⟨h1, h2, h3⟩
            apply hc
            simp only [List.length_drop] at h3
            simp only [Bool.and_eq_true, decide_eq_true_eq, Bool.not_eq_true']
            exact ⟨⟨by omega, h1⟩, h2⟩
          simp only [specClean, if_neg hf, if_neg hnc]
          rw [htake]
          simp only [List.append_assoc, List.singleton_append]
    · have h1 : ls.length ≤ i := by omega
      rw [List.drop_of_length_le h1, List.take_of_length_le h1]
      simp [cleanupGo, if_neg hlt, specClean]

/-- C6 (amended): the final line pass equals the recursive description
`specClean`: the preformatted flag toggles on every line starting with the
fence token; outside preformatted regions, a line starting with `"=>"` has
the leading whitespace of the following line stripped, but only when that
following line is not the last line of the document; modified lines are seen
by the subsequent iterations; everything inside fenced regions passes through
unmodified. -/
theorem c6_whitespace_cleanup (ls : List (List Char)) : cleanup ls = specClean false ls := by
  have h := cleanupGo_spec ls.length ls 0 false (by omega)
  simpa [cleanup] using h

/-- The cleanup pass exactly as claim C6 words it: every line after a
non-preformatted `"=>"` line is left-stripped whenever it exists, including
when it is the final line; `strip` records that the previous line requested a
strip of the current one. -/
def c6ClaimClean (pre strip : Bool) : List (List Char) → List (List Char)
  | [] => []
  | line0 :: rest =>
    let line := if strip then lstrip line0 else line0
    if (str "```").isPrefixOf line then line :: c6ClaimClean (!pre) false rest
    else if (str "=>").isPrefixOf line = true ∧ pre = false ∧ rest ≠ [] then
      line :: c6ClaimClean pre true rest
    else line :: c6ClaimClean pre false rest

/-- C6 (counterexample): in the two-line document `"=> x"` / `"  y"`, the
line following the link line is the last line, so the loop guard
`i+1 < length-1` skips it and its leading whitespace is kept, while the claim
requires it to be stripped. -/
theorem c6_counterexample :
    cleanup [str "=> x", str "  y"] = [str "=> x", str "  y"]
    ∧ c6ClaimClean false false [str "=> x", str "  y"] = [str "=> x", str "y"]
    ∧ [str "=> x", str "  y"] ≠ [str "=> x", str "y"] := by decide

theorem mem_pyJoin (d : Char) :
    ∀ (parts : List (List Char)) (c : Char), c ∈ pyJoin d parts →
      (∃ l ∈ parts, c ∈ l) ∨ c = d
  | [] => by intro c hc; simp [pyJoin] at hc
  | [x] => by
    intro c hc
    simp only [pyJoin] at hc
    exact Or.inl ⟨x, List.mem_cons_self _ _, hc⟩
  | x :: y :: xs => by
    intro c hc
    simp only [pyJoin] at hc
    rcases List.mem_append.1 hc with h1 | h1
    · exact Or.inl ⟨x, List.mem_cons_self _ _, h1⟩
    · rcases List.mem_cons.1 h1 with h2 | h2
      · exact Or.inr h2
      · rcases mem_pyJoin d (y :: xs) c h2 with ⟨l, hl, hcl⟩ | h3
        · exact Or.inl ⟨l, List.mem_cons_of_mem _ hl, hcl⟩
        · exact Or.inr h3

/-- Every character of every line lies in the character set `S`. -/
def linesSubset (S : List Char) (ls : List (List Char)) : Prop :=
  ∀ l ∈ ls, ∀ c ∈ l, c ∈ S

theorem cleanupGo_linesSubset (S : List Char) :
    ∀ (fuel len : Nat) (ls : List (List Char)) (i : Nat) (pre : Bool),
      linesSubset S ls → linesSubset S (cleanupGo fuel len ls i pre) := by
  intro fuel
  induction fuel with
  | zero => intro len ls i pre h; simpa [cleanupGo] using h
  | succ m ih =>
    intro len ls i pre h
    simp only [cleanupGo]
    split
    · split
      · exact ih _ _ _ _ h
      · split
        · apply ih
          intro l hl c hc
          rcases List.mem_or_eq_of_mem_set hl with h1 | h1
          · exact h l h1 c hc
          · subst h1
            simp only [lstrip] at hc
            have hc2 : c ∈ ls.getD (i + 1) [] := (List.dropWhile_sublist _).subset hc
            by_cases hr : i + 1 < ls.length
            · rw [List.getD_eq_getElem ls [] hr] at hc2
              exact h _ (List.getElem_mem ..) c hc2
            · rw [List.getD_eq_default ls [] (by omega)] at hc2
              simp at hc2
        · exact ih _ _ _ _ h
    · exact h

set_option maxHeartbeats 1000000 in
theorem mem_pySplitlinesGo (cur s : List Char) :
    ∀ l ∈ pySplitlinesGo cur s, ∀ c ∈ l, c ∈ cur ∨ c ∈ s := by
  induction cur, s using pySplitlinesGo.induct with
  | case1 cur =>
    intro l hl c hc
    rw [pySplitlinesGo.eq_1] at hl
    simp at hl
    subst hl
    exact Or.inl (List.mem_reverse.1 hc)
  | case2 cur r ih =>
    intro l hl c hc
    rw [pySplitlinesGo.eq_2] at hl
    rcases List.mem_cons.1 hl with h1 | h1
    · exact Or.inl (List.mem_reverse.1 (h1 ▸ hc))
    · split at h1
      · simp at h1
      · rcases ih l h1 c hc with h2 | h2
        · simp at h2
        · exact Or.inr (List.mem_cons_of_mem _ (List.mem_cons_of_mem _ h2))
  | case3 cur c0 rest hne hLB ih =>
    intro l hl c hc
    rw [pySplitlinesGo.eq_3 cur c0 rest hne, if_pos hLB] at hl
    rcases List.mem_cons.1 hl with h1 | h1
    · exact Or.inl (List.mem_reverse.1 (h1 ▸ hc))
    · split at h1
      · simp at h1
      · rcases ih l h1 c hc with h2 | h2
        · simp at h2
        · exact Or.inr (List.mem_cons_of_mem _ h2)
  | case4 cur c0 rest hne hLB ih =>
    intro l hl c hc
    rw [pySplitlinesGo.eq_3 cur c0 rest hne, if_neg hLB] at hl
    rcases ih l hl c hc with h2 | h2
    · rcases List.mem_cons.1 h2 with h3 | h3
      · exact Or.inr (h3 ▸ List.mem_cons_self _ _)
      · exact Or.inl h3
    · exact Or.inr (List.mem_cons_of_mem _ h2)

theorem mem_pySplitlines (s l : List Char) (hl : l ∈ pySplitlines s)
    (c : Char) (hc : c ∈ l) : c ∈ s := by
  cases s with
  | nil => simp [pySplitlines] at hl
  | cons a rest =>
    have h := mem_pySplitlinesGo [] (a :: rest) l hl c hc
    rcases h with h | h
    · simp at h
    · exact h

theorem mem_finalPass (g out : List Char) (h : finalPass g = some out)
    (c : Char) (hc : c ∈ out) : c ∈ g ∨ c = '\n' := by
  unfold finalPass at h
  cases hg : (pySplitlines g).getLast? with
  | none => rw [hg] at h; simp at h
  | some last =>
    rw [hg] at h
    simp only [Option.some_inj] at h
    subst h
    rcases mem_pyJoin '\n' _ c hc with ⟨l, hl, hcl⟩ | hnl
    · have hsub : linesSubset g (if last = [] then (pySplitlines g).dropLast else pySplitlines g) := by
        intro l2 hl2 c2 hc2
        apply mem_pySplitlines g l2 _ c2 hc2
        by_cases hl0 : last = []
        · rw [if_pos hl0] at hl2
          exact (List.dropLast_sublist _).subset hl2
        · rw [if_neg hl0] at hl2
          exact hl2
      exact Or.inl (cleanupGo_linesSubset g _ _ _ _ _ hsub l hl c hcl)
    · exact Or.inr hnl

/-- C2: whatever intermediate string the renderer produces and whatever
sentinel-free footnote block is appended in at-end mode, the string returned
by `md2gemini` contains zero occurrences of `PARAGRAPH_DELIM` and zero
occurrences of `LINK_DELIM`. -/
theorem c2_sentinel_closure (render : List Char → List Char)
    (markdown footnotes : List Char) (fm jk ae : Bool) (out : List Char)
    (hf : PARAGRAPH_DELIM ∉ footnotes)
    (h : md2gemini render markdown fm jk ae footnotes = some out) :
    out.count PARAGRAPH_DELIM = 0 ∧ out.count LINK_DELIM = 0 := by
  unfold md2gemini at h
  cases h1 : stripFrontmatter markdown fm jk with
  | none => rw [h1] at h; simp at h
  | some md =>
    rw [h1] at h
    dsimp only at h
    cases h2 : resolveParas (render md) with
    | none => rw [h2] at h; simp at h
    | some g1 =>
      rw [h2] at h
      dsimp only at h
      obtain ⟨r, hr, hr0⟩ := resolveParas_some (render md)
      have hg1 : g1 = r := by
        rw [h2] at hr
        exact Option.some_inj.1 hr
      have hP1 : PARAGRAPH_DELIM ∉ g1 := by
        rw [hg1]
        exact List.count_eq_zero.1 hr0
      have hPg2 : PARAGRAPH_DELIM ∉
          (if ae then g1 ++ NEWLINE ++ footnotes ++ NEWLINE else g1) := by
        by_cases hae : ae
        · rw [if_pos hae]
          intro hmem
          simp only [NEWLINE, List.mem_append] at hmem
          rcases hmem with ((hm | hm) | hm) | hm
          · exact hP1 hm
          · exact absurd (List.mem_singleton.1 hm) (by decide)
          · exact hf hm
          · exact absurd (List.mem_singleton.1 hm) (by decide)
        · rw [if_neg hae]
          exact hP1
      have hPl : PARAGRAPH_DELIM ∉
          linkResolve (if ae then g1 ++ NEWLINE ++ footnotes ++ NEWLINE else g1) := by
        intro hmem
        simp only [linkResolve, pruneL] at hmem
        rcases mem_lToNewline _ _ hmem with hm | hm
        · exact hPg2 (mem_collapseLL _ _ (mem_pruneGo _ _ _ hm))
        · exact absurd hm (by decide)
      have hLl : LINK_DELIM ∉
          linkResolve (if ae then g1 ++ NEWLINE ++ footnotes ++ NEWLINE else g1) :=
        not_mem_lToNewline _
      constructor <;> rw [List.count_eq_zero] <;> intro hmem
      · rcases mem_finalPass _ _ h _ hmem with hm | hm
        · exact hPl hm
        · exact absurd hm (by decide)
      · rcases mem_finalPass _ _ h _ hmem with hm | hm
        · exact hLl hm
        · exact absurd hm (by decide)

/-- C2 (witness): the sentinel-closure statement applied at a concrete run of
the pipeline with the identity renderer. -/
theorem c2_witness :
    (str "hi").count PARAGRAPH_DELIM = 0 ∧ (str "hi").count LINK_DELIM = 0 :=
  c2_sentinel_closure (fun s => s) (str "hi") [] false false false (str "hi")
    (by decide) (by decide)

/-- C3: on the empty document (or a whitespace-only document) with
`frontmatter=True`, the conversion does not return the empty string — the
pre-processing crashes with an `IndexError` at `lines[0]`, since the stripped
document has no lines; with all flags off and a renderer that maps the empty
intermediate string to itself, the final pass likewise crashes at
`gemlines[-1]`. -/
theorem c3_empty_input_crash :
    (∀ (render : List Char → List Char) (jk ae : Bool) (fns : List Char),
      md2gemini render [] true jk ae fns = none)
    ∧ (∀ (render : List Char → List Char) (jk ae : Bool) (fns : List Char),
      md2gemini render (str " \n\t ") true jk ae fns = none)
    ∧ md2gemini (fun s => s) [] false false false [] = none := by
  refine ⟨fun render jk ae fns => rfl, fun render jk ae fns => rfl, by decide⟩

